import Mathlib

/-!
Verification of the LLM generation routing subsystem of the Exegesis-AI
repository (shared ledger inflight coordination, spend accounting, cache-key
encoding, candidate ordering, and the circuit-breaker resilience policy).

The routing subsystem's implementation modules (`research/ai/ledger.py`,
`research/ai/router.py`, `research/ai/registry.py`, `adapters/resilience.py`)
are exercised by the repository's tests but the modules themselves are not
present in the source tree; every definition below is therefore modelled from
the specification (and the behaviour pinned down by the repository's tests),
as indicated in each doc comment.  Wall-clock timestamps (`created_at`,
`updated_at`) are omitted where no modelled property constrains them, and
floating-point money/latency quantities are modelled as rationals.
-/

namespace ExegesisAI

/-! ## Shared ledger: inflight coordination (per cache key) -/

/-- Modelled from the spec: status of an `InflightRow`,
`status ∈ {waiting, success, error}` (§3). -/
inductive InflightStatus
  | waiting
  | success
  | error
deriving DecidableEq, Repr

/-- Modelled from the spec: an `InflightRow` for one cache key — status, output
(set on success and preserved across a later recreation), error message, plus
the latency and cost recorded with a successful completion (§3, §4.2).  The
`updated_at` timestamp is omitted: no modelled property constrains it. -/
structure InflightRow where
  status : InflightStatus
  output : Option String
  latencyMs : ℚ
  cost : ℚ
  errorMessage : Option String
deriving DecidableEq, Repr

/-- Modelled from the spec: a `CacheRecord` — cache_key, output, latency_ms,
cost (§3); `created_at` is carried for TTL checks by the router. -/
structure CacheRecord where
  cache_key : String
  output : String
  latency_ms : ℚ
  cost : ℚ
  created_at : ℚ
deriving DecidableEq, Repr

/-- Modelled from the spec: the slice of the `SharedLedger` state that concerns
one cache key — at most one inflight row (§3) and at most one cache record for
that key (§4.2). -/
structure KeyState where
  row : Option InflightRow
  cache : Option CacheRecord
deriving DecidableEq, Repr

/-- Modelled from the spec: `create_inflight` (re)creates the row as `waiting`;
when a row already exists (a restart recreating the claim) the output preserved
from a prior success is retained on the recreated row, so waiters can replay it
(§4.1 state machine, §4.2). -/
def create_inflight (s : KeyState) : KeyState :=
  { s with
    row := some
      { status := .waiting
        output := s.row.bind (·.output)
        latencyMs := (s.row.map (·.latencyMs)).getD 0
        cost := (s.row.map (·.cost)).getD 0
        errorMessage := none } }

/-- Modelled from the spec: `mark_inflight_success` marks the row `success`
with the output so concurrent waiters observe the same result, and records the
completed result durably for the key (§4.1 step 5, §4.2); `created_at` of the
recorded result is taken at the marking time. -/
def mark_inflight_success (key : String) (s : KeyState) (output : String)
    (latencyMs cost createdAt : ℚ) : KeyState :=
  { s with
    row := some
      { status := .success
        output := some output
        latencyMs := latencyMs
        cost := cost
        errorMessage := none }
    cache := some
      { cache_key := key
        output := output
        latency_ms := latencyMs
        cost := cost
        created_at := createdAt } }

/-- Modelled from the spec: `mark_inflight_error` marks the row `error` with a
message; a previously preserved success output on the row is retained (§4.1
state machine, §4.2). -/
def mark_inflight_error (s : KeyState) (msg : String) : KeyState :=
  { s with
    row := s.row.map (fun r =>
      { r with status := .error, errorMessage := some msg }) |>.orElse
      (fun _ => some
        { status := .error
          output := none
          latencyMs := 0
          cost := 0
          errorMessage := some msg }) }

/-- Modelled from the spec: `clear_single_inflight` removes the inflight row
for the key; the durably recorded result for the key is untouched (§4.2). -/
def clear_single_inflight (s : KeyState) : KeyState :=
  { s with row := none }

/-- Modelled from the spec: `store_cache_entry` writes a cache record for the
key (§4.2). -/
def store_cache_entry (s : KeyState) (r : CacheRecord) : KeyState :=
  { s with cache := some r }

/-- Result of one polling pass of `wait_for_inflight`. -/
inductive PollOutcome
  | ret (r : CacheRecord)
  | raiseErr (msg : String)
  | keepWaiting
deriving DecidableEq, Repr

/-- Record replayed to a waiter from the fields of an inflight row. -/
def recordOfRow (key : String) (row : InflightRow) : CacheRecord :=
  { cache_key := key
    output := row.output.getD ""
    latency_ms := row.latencyMs
    cost := row.cost
    created_at := 0 }

/-- Modelled from the spec: one polling pass of `wait_for_inflight` over the
key's ledger state (§4.2):
(a) status `success` → return the record;
(b) status `error` and no prior success output retained for the key → raise;
(c) status `error` but a prior success output is retained (on the row, or as
    the key's recorded result) → return that preserved output;
(d) the row is transiently absent → keep waiting, unless a completed result is
    already recorded for the key, in which case return it;
and a `waiting` row that carries a preserved success output (recreated after a
prior success) replays that output immediately (§4.1 state machine). -/
def pollInflight (key : String) (s : KeyState) : PollOutcome :=
  match s.row with
  | none =>
    match s.cache with
    | some r => .ret r
    | none => .keepWaiting
  | some row =>
    match row.status with
    | .success => .ret (recordOfRow key row)
    | .waiting =>
      match row.output with
      | some _ => .ret (recordOfRow key row)
      | none => .keepWaiting
    | .error =>
      match row.output with
      | some _ => .ret (recordOfRow key row)
      | none =>
        match s.cache with
        | some r => .ret r
        | none => .raiseErr (row.errorMessage.getD "inflight generation failed")

/-- Outcome of a full `wait_for_inflight` call. -/
inductive WaitResult
  | ok (r : CacheRecord)
  | inflightFailure (msg : String)
  | timeout
deriving DecidableEq, Repr

/-- Modelled from the spec: `wait_for_inflight(key, poll_interval, timeout)`
polls the key's ledger state until it resolves or the timeout elapses (§4.2).
The call is modelled on the sequence of per-key ledger states observed at the
successive polls (other actors mutate the ledger between polls); exhausting the
sequence is the timeout elapsing. -/
def wait_for_inflight (key : String) : List KeyState → WaitResult
  | [] => .timeout
  | s :: rest =>
    match pollInflight key s with
    | .ret r => .ok r
    | .raiseErr m => .inflightFailure m
    | .keepWaiting => wait_for_inflight key rest

/-! ## Router: one generation attempt (budget, latency, cache, dedup) -/

/-- Modelled from the spec: the routing-relevant configuration of one
registered model — pricing `per_call` and routing policy `spend_ceiling`,
`latency_threshold_ms`, `cache_enabled`, `cache_ttl_seconds` (§3). -/
structure ModelCfg where
  name : String
  per_call : ℚ
  spend_ceiling : Option ℚ
  latency_threshold_ms : Option ℚ
  cache_enabled : Bool
  cache_ttl_seconds : ℚ
deriving DecidableEq, Repr

/-- Modelled from the spec: the ledger state a `Router.execute_generation`
attempt reads and writes, projected onto the attempt's model and cache key —
the model's cumulative spend and last observed latency, and the key's slice of
the ledger (§3, §4.2). -/
structure RouterState where
  spend : ℚ
  latency : Option ℚ
  keyState : KeyState
deriving DecidableEq, Repr

/-- Outcome of one `execute_generation` attempt. -/
inductive GenResult
  | ok (r : CacheRecord)
  | genError (msg : String)
deriving DecidableEq, Repr

/-- Result of one `execute_generation` attempt: the returned value or raised
`GenerationError`, the updated ledger state, and whether the provider client's
`generate` was invoked during the attempt. -/
structure AttemptResult where
  result : GenResult
  state : RouterState
  providerInvoked : Bool
deriving DecidableEq, Repr

/-- Modelled from the spec: cache lookup — a hit is a live (not TTL-expired)
record under an enabled cache policy (§4.1 step 2). -/
def cacheHit (m : ModelCfg) (now : ℚ) (s : KeyState) : Option CacheRecord :=
  match s.cache with
  | some r =>
    if m.cache_enabled ∧ now < r.created_at + m.cache_ttl_seconds then some r
    else none
  | none => none

/-- Modelled from the spec: whether the measured latency exceeds the model's
threshold (§4.1). -/
def exceedsThreshold (threshold : Option ℚ) (lat : ℚ) : Bool :=
  match threshold with
  | some T => decide (T < lat)
  | none => false

/-- Modelled from the spec: recording the provider call's outcome (§4.1 step
5): on failure mark the inflight row `error` and raise; on success record the
measured latency, then if it now exceeds the threshold mark the row `error`
and raise, otherwise charge `per_call` to the model's spend, record the
completed result for the key, mark the row `success`, and return it. -/
def recordOutcome (m : ModelCfg) (key : String) (now : ℚ)
    (gen : Except String (String × ℚ)) (st : RouterState) : AttemptResult :=
  match gen with
  | .error msg =>
    { result := .genError msg
      state := { st with keyState := mark_inflight_error st.keyState msg }
      providerInvoked := true }
  | .ok (out, lat) =>
    if exceedsThreshold m.latency_threshold_ms lat then
      { result := .genError "model latency exceeded threshold"
        state :=
          { st with
            latency := some lat
            keyState :=
              mark_inflight_error st.keyState "model latency exceeded threshold" }
        providerInvoked := true }
    else
      { result := .ok
          { cache_key := key, output := out, latency_ms := lat,
            cost := m.per_call, created_at := now }
        state :=
          { spend := st.spend + m.per_call
            latency := some lat
            keyState :=
              mark_inflight_success key st.keyState out lat m.per_call now }
        providerInvoked := true }

/-- Modelled from the spec: inflight deduplication and provider invocation
(§4.1 steps 4–5): when a row for the key already exists the caller blocks on
`wait_for_inflight` and returns its resolution (in this single-attempt model,
the resolution the key's current state yields — an unresolved wait times out
into a `GenerationError`); otherwise the caller atomically creates the
`waiting` row and invokes the provider. -/
def dedupOrInvoke (m : ModelCfg) (key : String) (now : ℚ)
    (gen : Except String (String × ℚ)) (st : RouterState) : AttemptResult :=
  match st.keyState.row with
  | some _ =>
    { result :=
        match pollInflight key st.keyState with
        | .ret r => .ok r
        | .raiseErr msg => .genError msg
        | .keepWaiting => .genError "timed out waiting for inflight generation"
      state := st
      providerInvoked := false }
  | none =>
    recordOutcome m key now gen { st with keyState := create_inflight st.keyState }

/-- Modelled from the spec: the latency availability check and everything after
it (§4.1 steps 3–5): fail before invocation when the model's last recorded
latency exceeds its threshold. -/
def afterSpendCheck (m : ModelCfg) (key : String) (now : ℚ)
    (gen : Except String (String × ℚ)) (st : RouterState) : AttemptResult :=
  match st.latency, m.latency_threshold_ms with
  | some L, some T =>
    if T < L then
      { result := .genError "recent latency exceeded threshold"
        state := st
        providerInvoked := false }
    else dedupOrInvoke m key now gen st
  | _, _ => dedupOrInvoke m key now gen st

/-- Modelled from the spec: `Router.execute_generation` for one candidate
model (§4.1 steps 1–5), projected onto the attempt's model and cache key: a
live cache record is returned immediately with no spend charged; otherwise if
`current_spend + per_call > spend_ceiling` the recorded spend is clamped to
the ceiling and the attempt fails without invoking the provider; then the
latency check, inflight deduplication, and the provider call (whose outcome is
the `gen` argument) follow. -/
def execute_generation (m : ModelCfg) (key : String) (now : ℚ)
    (gen : Except String (String × ℚ)) (st : RouterState) : AttemptResult :=
  match cacheHit m now st.keyState with
  | some r => { result := .ok r, state := st, providerInvoked := false }
  | none =>
    match m.spend_ceiling with
    | some S =>
      if S < st.spend + m.per_call then
        { result := .genError "projected spend exceeded ceiling"
          state := { st with spend := S }
          providerInvoked := false }
      else afterSpendCheck m key now gen st
    | none => afterSpendCheck m key now gen st

deriving instance DecidableEq for Except

/-- Modelled from the spec: the ledger-visible operations a sequence of
Router/SharedLedger interactions can apply to one model's and one key's state —
direct spend/latency writes (`txn.set_spend`, `txn.set_latency`), a full
`execute_generation` attempt, and `reset()` (§4.2). -/
inductive LedgerOp
  | set_spend (v : ℚ)
  | set_latency (v : ℚ)
  | attempt (now : ℚ) (gen : Except String (String × ℚ))
  | reset
deriving DecidableEq, Repr

/-- Modelled from the spec: applying one ledger-visible operation (§4.2);
`reset()` wipes spend, latency, cache, and inflight state. -/
def applyOp (m : ModelCfg) (key : String) (st : RouterState) :
    LedgerOp → RouterState
  | .set_spend v => { st with spend := v }
  | .set_latency v => { st with latency := some v }
  | .attempt now gen => (execute_generation m key now gen st).state
  | .reset => { spend := 0, latency := none, keyState := ⟨none, none⟩ }

/-- Modelled from the spec: running a sequence of ledger-visible operations. -/
def runOps (m : ModelCfg) (key : String) (st : RouterState)
    (ops : List LedgerOp) : RouterState :=
  ops.foldl (applyOp m key) st

/-- Example model with a live cache: per-call `3/5`, spend ceiling `1`,
caching enabled with TTL `100`. -/
def cachedModel : ModelCfg :=
  { name := "primary", per_call := 3/5, spend_ceiling := some 1,
    latency_threshold_ms := none, cache_enabled := true,
    cache_ttl_seconds := 100 }

/-- Example cache record for key `"k"`, created at time `0`. -/
def cachedRecord : CacheRecord :=
  { cache_key := "k", output := "cached", latency_ms := 5, cost := 1/2,
    created_at := 0 }

/-- Example ledger state with recorded spend `3/2` (already above the ceiling)
and a live cache record for the key. -/
def overspentCachedState : RouterState :=
  { spend := 3/2, latency := none,
    keyState := { row := none, cache := some cachedRecord } }

/-- Example model with per-call cost `1/5` and spend ceiling `1`, caching
disabled. -/
def modelFifth : ModelCfg :=
  { name := "primary", per_call := 1/5, spend_ceiling := some 1,
    latency_threshold_ms := none, cache_enabled := false,
    cache_ttl_seconds := 0 }

/-- Fresh per-model/per-key ledger state: no spend, no latency, no rows. -/
def freshState : RouterState :=
  { spend := 0, latency := none, keyState := ⟨none, none⟩ }

/-- Ledger state with spend prepopulated to `3/2` through `set_spend`. -/
def overspentState : RouterState :=
  { spend := 3/2, latency := none, keyState := ⟨none, none⟩ }

/-- Two successful generation attempts, used to instantiate the
spend-monotonicity theorem. -/
def twoAttempts : List LedgerOp :=
  [LedgerOp.attempt 0 (.ok ("x", 1)), LedgerOp.attempt 1 (.ok ("y", 1))]

/-! ## Cache-key encoding -/

/-- Modelled from the spec: the five-tuple a cache key encodes —
(model name, workflow, prompt, temperature, max_tokens) (§3, §4.1 step 1). -/
structure RequestKey where
  model : String
  workflow : String
  prompt : String
  temperature : ℚ
  max_tokens : ℕ
deriving DecidableEq, Repr

/-- Unary length marker: `n` ones followed by a colon. -/
def encLen (n : ℕ) : List Char :=
  List.replicate n '1' ++ [':']

/-- Length-prefixed encoding of a character list. -/
def encStr (s : List Char) : List Char :=
  encLen s.length ++ s

/-- Sign-and-magnitude encoding of an integer. -/
def encInt : ℤ → List Char
  | .ofNat n => '+' :: encLen n
  | .negSucc n => '-' :: encLen n

/-- Encoding of a rational by its normalised numerator and denominator. -/
def encRat (q : ℚ) : List Char :=
  encInt q.num ++ encLen q.den

/-- Modelled from the spec: `encode_cache_key` — "a deterministic,
order-sensitive encoding of (model, workflow, prompt, temperature,
max_tokens); identical inputs always encode identically, distinct inputs
encode differently" (§3).  The spec leaves the concrete scheme open ("any
total, order-sensitive, collision-resistant encoding of the five-tuple
satisfies all tests", §9); this model uses length-prefixed fields in the
spec's field order. -/
def encode_cache_key (t : RequestKey) : String :=
  ⟨encStr t.model.data ++
    (encStr t.workflow.data ++
      (encStr t.prompt.data ++
        (encRat t.temperature ++ encLen t.max_tokens)))⟩

/-! ## Registry: candidate iteration order -/

/-- Modelled from the spec: a registry entry as `iter_candidates` sees it —
the model's name, its routing `weight`, and its registration position (the
registry is a name-to-model map populated in registration order, §3, §4.3). -/
structure RegEntry where
  name : String
  weight : ℚ
  idx : ℕ
deriving DecidableEq, Repr

/-- Priority order used for fallback: higher weight first, ties broken by
earlier registration (the stable tie-break of a stable sort on descending
weight). -/
def prio (a b : RegEntry) : Prop :=
  b.weight < a.weight ∨ (a.weight = b.weight ∧ a.idx ≤ b.idx)

instance : DecidableRel prio := fun a b => by
  unfold prio
  infer_instance

instance : IsTotal RegEntry prio :=
  ⟨fun a b => by
    unfold prio
    rcases lt_trichotomy a.weight b.weight with h | h | h
    · exact Or.inr (Or.inl h)
    · rcases le_total a.idx b.idx with h2 | h2
      · exact Or.inl (Or.inr ⟨h, h2⟩)
      · exact Or.inr (Or.inr ⟨h.symm, h2⟩)
    · exact Or.inl (Or.inl h)⟩

instance : IsTrans RegEntry prio :=
  ⟨fun a b c hab hbc => by
    unfold prio at hab hbc ⊢
    rcases hab with h1 | ⟨h1, h1i⟩ <;> rcases hbc with h2 | ⟨h2, h2i⟩
    · exact Or.inl (lt_trans h2 h1)
    · exact Or.inl (h2 ▸ h1)
    · exact Or.inl (by rw [h1]; exact h2)
    · exact Or.inr ⟨h1.trans h2, le_trans h1i h2i⟩⟩

/-- Registry contents (name and weight in registration order) tagged with
registration indices. -/
def indexedRegistry (registry : List (String × ℚ)) : List RegEntry :=
  registry.enum.map fun p => ⟨p.2.1, p.2.2, p.1⟩

/-- Modelled from the spec: `iter_candidates(workflow, model_hint)` yields the
hinted model first if present, then the remaining registry entries ordered by
descending `weight` with a stable tie-break by registration order (§4.1 step
6).  The workflow does not affect the order and is omitted. -/
def iter_candidates (registry : List (String × ℚ)) (hint : Option String) :
    List RegEntry :=
  match hint with
  | none => List.insertionSort prio (indexedRegistry registry)
  | some h =>
    match (indexedRegistry registry).find? (fun e => e.name == h) with
    | some m =>
      m :: (List.insertionSort prio (indexedRegistry registry)).filter
        (fun e => !(e.name == h))
    | none => List.insertionSort prio (indexedRegistry registry)

/-! ## Circuit-breaker resilience policy -/

/-- Modelled from the spec: `ResilienceSettings` — the breaker's failure
threshold and recovery window (§4.4; `max_attempts` plays no role in the
circuit check and is omitted). -/
structure ResilienceSettings where
  breaker_threshold : ℕ
  breaker_reset_seconds : ℚ
deriving DecidableEq, Repr

/-- Modelled from the spec: one `_CircuitState` — failures so far, when the
circuit opened (if open), and when the entry was last touched (§3). -/
structure CircuitState where
  failures : ℕ
  opened_at : Option ℚ
  last_touched : ℚ
deriving DecidableEq, Repr

/-- The policy's per-key state table (a dict in the source; keys unique). -/
abbrev CircuitTable : Type := List (String × CircuitState)

/-- Modelled from the spec: the policy's configuration — settings plus the
maintenance bounds `max_circuit_entries` and the idle TTL (§4.4). -/
structure PolicyCfg where
  settings : ResilienceSettings
  max_circuit_entries : ℕ
  ttl_seconds : ℚ
deriving DecidableEq, Repr

/-- Ascending order on entries by `last_touched` (least recently touched
first). -/
def touchLe (a b : String × CircuitState) : Prop :=
  a.2.last_touched ≤ b.2.last_touched

instance : DecidableRel touchLe := fun a b => by
  unfold touchLe
  infer_instance

instance : IsTotal (String × CircuitState) touchLe :=
  ⟨fun a b => le_total a.2.last_touched b.2.last_touched⟩

instance : IsTrans (String × CircuitState) touchLe :=
  ⟨fun _ _ _ hab hbc => le_trans hab hbc⟩

/-- Modelled from the spec: capacity eviction — walk the entries least
recently touched first and delete healthy ones until the excess is gone; an
open circuit is never evicted regardless of age (§4.4). -/
def dropHealthy : ℕ → List (String × CircuitState) → List (String × CircuitState)
  | 0, l => l
  | _ + 1, [] => []
  | n + 1, e :: tl =>
    if e.2.opened_at.isSome then e :: dropHealthy (n + 1) tl
    else dropHealthy n tl

/-- Entries that survive the idle-TTL sweep: open circuits (active incidents
are never silently forgotten) and entries touched within the TTL. -/
def freshCircuits (cfg : PolicyCfg) (now : ℚ) (table : CircuitTable) :
    CircuitTable :=
  table.filter fun e =>
    e.2.opened_at.isSome || decide (now - e.2.last_touched ≤ cfg.ttl_seconds)

/-- Modelled from the spec: opportunistic maintenance — delete entries
untouched for longer than the TTL, then if the table still exceeds
`max_circuit_entries` evict least-recently-touched healthy entries first; an
open circuit is never evicted (§4.4). -/
def pruneCircuits (cfg : PolicyCfg) (now : ℚ) (table : CircuitTable) :
    CircuitTable :=
  dropHealthy ((freshCircuits cfg now table).length - cfg.max_circuit_entries)
    (List.insertionSort touchLe (freshCircuits cfg now table))

/-- Lookup of a key's circuit state in the table. -/
def lookupCircuit (key : String) (table : CircuitTable) :
    Option CircuitState :=
  (table.find? fun e => e.1 == key).map Prod.snd

/-- Update the state stored under `key` (other entries untouched). -/
def mapAtKey (f : CircuitState → CircuitState) (key : String)
    (table : CircuitTable) : CircuitTable :=
  table.map fun e => if e.1 == key then (e.1, f e.2) else e

/-- Refresh the key's `last_touched` stamp. -/
def touchCircuit (key : String) (now : ℚ) (table : CircuitTable) :
    CircuitTable :=
  mapAtKey (fun s => { s with last_touched := now }) key table

/-- Modelled from the spec: `_check_circuit` — run maintenance, then consult
(or create) the key's entry and report whether the circuit is open and inside
its recovery window (§4.4); the consulted entry is touched. -/
def checkCircuit (cfg : PolicyCfg) (now : ℚ) (key : String)
    (table : CircuitTable) : Bool × CircuitTable :=
  match lookupCircuit key (pruneCircuits cfg now table) with
  | some st =>
    match st.opened_at with
    | some t =>
      (decide (now - t < cfg.settings.breaker_reset_seconds),
        touchCircuit key now (pruneCircuits cfg now table))
    | none => (false, touchCircuit key now (pruneCircuits cfg now table))
  | none =>
    (false,
      pruneCircuits cfg now table ++
        [(key, { failures := 0, opened_at := none, last_touched := now })])

/-- Outcome of one `CircuitBreakerResiliencePolicy.run` call: the callable's
result, or a raised `ResilienceError` with category `circuit_open`, or a
raised `ResilienceError` carrying the failure's classification. -/
inductive RunOutcome (α : Type)
  | ok (a : α)
  | circuitOpen
  | failure (category : String)
deriving DecidableEq, Repr

/-- Modelled from the spec: `run(callable, key, classification)` (§4.4).  The
callable's behaviour is the `outcome` argument (its result, or the raised
exception's classification).  Returns the run outcome, the updated state
table, and whether the callable was invoked.  If the circuit is open inside
its recovery window, raise `circuit_open` without invoking.  On success the
key's state is reset (`failures = 0`, `opened_at = none`); on failure the
failure count is incremented and, at the threshold, the circuit opens at
`now`; the error is re-raised with its classification. -/
def run (cfg : PolicyCfg) (now : ℚ) (key : String)
    (outcome : Except String α) (table : CircuitTable) :
    RunOutcome α × CircuitTable × Bool :=
  match checkCircuit cfg now key table with
  | (true, t1) => (.circuitOpen, t1, false)
  | (false, t1) =>
    match outcome with
    | .ok a =>
      (.ok a,
        mapAtKey (fun s => { s with failures := 0, opened_at := none })
          key t1,
        true)
    | .error category =>
      (.failure category,
        mapAtKey (fun s =>
          { s with
            failures := s.failures + 1
            opened_at :=
              if cfg.settings.breaker_threshold ≤ s.failures + 1 then
                some now
              else s.opened_at }) key t1,
        true)

/-! ## Concurrent deduplication of identical requests -/

/-- Modelled from the spec: the phase of one concurrent
`Router.execute_generation` caller for a shared cache key with no prior cache
entry (§4.1 steps 4–5, §5): a caller either atomically claims the inflight row
(then invokes the provider and marks success) or polls as a waiter. -/
inductive CallerPhase
  | start
  | claimed
  | invokedP
  | waitingP
  | doneP (out : String)
deriving DecidableEq, Repr

/-- Modelled from the spec: the shared per-key inflight cell — the single row
per cache key *is* the mutex (§5). -/
inductive CellState
  | empty
  | waitingRow
  | successRow (out : String)
deriving DecidableEq, Repr

/-- Global state of `N` concurrent identical requests sharing one ledger:
the key's inflight cell, the number of provider invocations so far, and each
caller's phase. -/
structure DedupSystem where
  cell : CellState
  invocations : ℕ
  callers : List CallerPhase
deriving DecidableEq, Repr

/-- Modelled from the spec: one atomic step of caller `i` (§4.1 steps 4–5):
from `start`, atomically create the `waiting` row and become the owner, or
become a polling waiter when a row already exists; the owner then invokes the
provider (counted) and afterwards marks the row `success` with the provider
output `O`; a waiter resolves only once the row is `success`, returning the
row's output. -/
def dedupStep (O : String) (s : DedupSystem) (i : ℕ) : DedupSystem :=
  match s.callers.get? i with
  | none => s
  | some ph =>
    match ph with
    | .start =>
      match s.cell with
      | .empty =>
        { s with cell := .waitingRow, callers := s.callers.set i .claimed }
      | _ => { s with callers := s.callers.set i .waitingP }
    | .claimed =>
      { s with
        invocations := s.invocations + 1
        callers := s.callers.set i .invokedP }
    | .invokedP =>
      { s with cell := .successRow O, callers := s.callers.set i (.doneP O) }
    | .waitingP =>
      match s.cell with
      | .successRow o => { s with callers := s.callers.set i (.doneP o) }
      | _ => s
    | .doneP _ => s

/-- Execution of a schedule (an arbitrary interleaving of caller steps). -/
def dedupRun (O : String) (s : DedupSystem) (sched : List ℕ) : DedupSystem :=
  sched.foldl (dedupStep O) s

/-- Initial state: no inflight row and no cache entry for the key, no provider
invocations, `N` callers about to execute identical requests. -/
def initSystem (N : ℕ) : DedupSystem :=
  { cell := .empty, invocations := 0, callers := List.replicate N .start }

/-- Owner phase test: the caller holds the claim but has not yet invoked. -/
def isClaimed : CallerPhase → Bool
  | .claimed => true
  | _ => false

/-- Owner phase test: the caller has invoked but not yet marked success. -/
def isInvoked : CallerPhase → Bool
  | .invokedP => true
  | _ => false

/-- Invariant tying the inflight cell, the invocation count, and the caller
phases together: before any row exists nothing has run; while the row is
`waiting` exactly one caller owns it, the provider has been invoked only by an
owner past its invocation, and nobody is done; once the row is `success` its
output is the provider output `O`, the provider was invoked exactly once, and
every finished caller got `O`. -/
def dedupInv (O : String) (s : DedupSystem) : Prop :=
  match s.cell with
  | .empty => s.invocations = 0 ∧ ∀ ph ∈ s.callers, ph = .start
  | .waitingRow =>
      s.callers.countP isClaimed + s.callers.countP isInvoked = 1 ∧
      s.invocations = s.callers.countP isInvoked ∧
      ∀ ph ∈ s.callers, ∀ o, ph ≠ .doneP o
  | .successRow o =>
      o = O ∧ s.invocations = 1 ∧
      s.callers.countP isClaimed = 0 ∧
      s.callers.countP isInvoked = 0 ∧
      ∀ ph ∈ s.callers, ∀ o2, ph = .doneP o2 → o2 = O

theorem wait_for_inflight_cons_keepWaiting (key : String) (s : KeyState)
    (states : List KeyState) (h : pollInflight key s = .keepWaiting) :
    wait_for_inflight key (s :: states) = wait_for_inflight key states := by
  simp [wait_for_inflight, h]

theorem wait_for_inflight_skip_polls (key : String) (pre states : List KeyState)
    (hpre : ∀ s ∈ pre, pollInflight key s = .keepWaiting) :
    wait_for_inflight key (pre ++ states) = wait_for_inflight key states := by
  induction pre with
  | nil => rfl
  | cons s tl ih =>
    rw [List.cons_append,
      wait_for_inflight_cons_keepWaiting key s _ (hpre s (by simp))]
    exact ih fun t ht => hpre t (by simp [ht])

theorem pollInflight_eq_raiseErr (key : String) (s : KeyState) (m : String)
    (h : pollInflight key s = .raiseErr m) :
    ∃ row, s.row = some row ∧ row.status = .error ∧ row.output = none ∧
      s.cache = none := by
  rcases hr : s.row with _ | row
  · rcases hc : s.cache with _ | c <;> simp [pollInflight, hr, hc] at h
  · rcases hst : row.status <;> rcases ho : row.output with _ | o <;>
      rcases hc : s.cache with _ | c <;>
      simp only [pollInflight, hr, hst, ho, hc] at h <;>
      first
        | exact ⟨row, rfl, hst, ho, rfl⟩
        | cases h

/-- C2: once a cache key's inflight row has been marked `success` with output
`O`, a later recreation of the `waiting` row for that key (restart) makes any
`wait_for_inflight` call — by a waiter whose earlier polls were all
inconclusive, or by a new waiter with no earlier polls — return `O` at the
very poll that observes the recreated row (hence immediately, whatever states
follow), and likewise even if that recreated row is subsequently marked
`error`. -/
theorem wait_for_inflight_replays_preserved_on_recreated_waiting
    (key O msg : String) (lat cost createdAt : ℚ) (s0 : KeyState)
    (pre tail tail' : List KeyState)
    (hpre : ∀ s ∈ pre, pollInflight key s = .keepWaiting) :
    (∃ r, wait_for_inflight key
        (pre ++ create_inflight (mark_inflight_success key s0 O lat cost createdAt) :: tail)
        = .ok r ∧ r.output = O)
    ∧ (∃ r, wait_for_inflight key
        (pre ++ mark_inflight_error
          (create_inflight (mark_inflight_success key s0 O lat cost createdAt)) msg :: tail')
        = .ok r ∧ r.output = O) := by
  rw [wait_for_inflight_skip_polls key pre _ hpre,
    wait_for_inflight_skip_polls key pre _ hpre]
  constructor
  · exact ⟨recordOfRow key
      { status := .waiting, output := some O, latencyMs := lat, cost := cost,
        errorMessage := none },
      by simp [wait_for_inflight, pollInflight, create_inflight,
        mark_inflight_success, Option.bind],
      by simp [recordOfRow]⟩
  · exact ⟨recordOfRow key
      { status := .error, output := some O, latencyMs := lat, cost := cost,
        errorMessage := some msg },
      by simp [wait_for_inflight, pollInflight, create_inflight,
        mark_inflight_success, mark_inflight_error, Option.bind, Option.orElse],
      by simp [recordOfRow]⟩

/-- Closed instance of
`wait_for_inflight_replays_preserved_on_recreated_waiting` at a concrete key,
output, and state. -/
theorem wait_for_inflight_replays_preserved_on_recreated_waiting_witness :
    (∃ r, wait_for_inflight "k"
        ([] ++ create_inflight
          (mark_inflight_success "k" ⟨none, none⟩ "out" 1 2 3) :: [])
        = .ok r ∧ r.output = "out")
    ∧ (∃ r, wait_for_inflight "k"
        ([] ++ mark_inflight_error
          (create_inflight
            (mark_inflight_success "k" ⟨none, none⟩ "out" 1 2 3)) "boom" :: [])
        = .ok r ∧ r.output = "out") :=
  wait_for_inflight_replays_preserved_on_recreated_waiting
    "k" "out" "boom" 1 2 3 ⟨none, none⟩ [] [] [] (by simp)

/-- C3: branch behaviour of `wait_for_inflight` (§4.2): when the row's status
is `error` and a prior success output is retained for the key (on the row, or
as the key's recorded result), the call returns that preserved output and does
not raise; the call raises an inflight failure (before timeout) only when some
observed state has an `error` row with no retained output for the key; and a
state with the row transiently absent (and nothing recorded for the key) makes
the call keep polling rather than fail. -/
theorem wait_for_inflight_error_branches
    (key : String) (s : KeyState) (states : List KeyState) :
    (∀ row, s.row = some row → row.status = .error →
      ((∀ O, row.output = some O →
        ∃ r, wait_for_inflight key (s :: states) = .ok r ∧ r.output = O)
      ∧ (row.output = none → ∀ c, s.cache = some c →
        wait_for_inflight key (s :: states) = .ok c)))
    ∧ (∀ m, wait_for_inflight key states = .inflightFailure m →
        ∃ s' ∈ states, ∃ row, s'.row = some row ∧ row.status = .error ∧
          row.output = none ∧ s'.cache = none)
    ∧ (s.row = none → s.cache = none →
        wait_for_inflight key (s :: states) = wait_for_inflight key states) := by
  refine ⟨?_, ?_, ?_⟩
  · intro row hrow hstat
    constructor
    · intro O hO
      exact ⟨recordOfRow key row,
        by simp [wait_for_inflight, pollInflight, hrow, hstat, hO],
        by simp [recordOfRow, hO]⟩
    · intro hO c hc
      simp [wait_for_inflight, pollInflight, hrow, hstat, hO, hc]
  · induction states with
    | nil => intro m h; cases h
    | cons s' rest ih =>
      intro m h
      rcases hp : pollInflight key s' with r | m' | _
      · rw [wait_for_inflight, hp] at h; cases h
      · rw [wait_for_inflight, hp] at h
        obtain ⟨row, hrow, hstat, ho, hc⟩ := pollInflight_eq_raiseErr key s' m' hp
        exact ⟨s', by simp, row, hrow, hstat, ho, hc⟩
      · rw [wait_for_inflight, hp] at h
        obtain ⟨t, ht, hrest⟩ := ih m h
        exact ⟨t, by simp [ht], hrest⟩
  · intro h1 h2
    simp [wait_for_inflight, pollInflight, h1, h2]

/-- Closed instance of `wait_for_inflight_error_branches`: an `error` row with
preserved output `"out"` yields `"out"` to a waiter at once. -/
theorem wait_for_inflight_error_branches_witness :
    ∃ r, wait_for_inflight "k"
      ({ row := some ⟨.error, some "out", 1, 2, some "stale"⟩, cache := none }
        :: []) = .ok r ∧ r.output = "out" :=
  ((wait_for_inflight_error_branches "k"
    { row := some ⟨.error, some "out", 1, 2, some "stale"⟩, cache := none }
    []).1 _ rfl rfl).1 "out" rfl

theorem recordOutcome_spend (m : ModelCfg) (key : String) (now : ℚ)
    (gen : Except String (String × ℚ)) (st : RouterState) :
    (recordOutcome m key now gen st).state.spend = st.spend ∨
    (recordOutcome m key now gen st).state.spend = st.spend + m.per_call := by
  rcases gen with msg | ⟨out, lat⟩
  · exact Or.inl rfl
  · simp only [recordOutcome]
    split_ifs <;> simp

theorem dedupOrInvoke_spend (m : ModelCfg) (key : String) (now : ℚ)
    (gen : Except String (String × ℚ)) (st : RouterState) :
    (dedupOrInvoke m key now gen st).state.spend = st.spend ∨
    (dedupOrInvoke m key now gen st).state.spend = st.spend + m.per_call := by
  unfold dedupOrInvoke
  rcases h : st.keyState.row with _ | row
  · simp only [h]
    exact recordOutcome_spend m key now gen _
  · simp [h]

theorem afterSpendCheck_spend (m : ModelCfg) (key : String) (now : ℚ)
    (gen : Except String (String × ℚ)) (st : RouterState) :
    (afterSpendCheck m key now gen st).state.spend = st.spend ∨
    (afterSpendCheck m key now gen st).state.spend = st.spend + m.per_call := by
  unfold afterSpendCheck
  rcases hl : st.latency with _ | L <;> rcases ht : m.latency_threshold_ms with _ | T <;>
    simp only [hl, ht]
  case some.some =>
    split_ifs
    · exact Or.inl rfl
    · exact dedupOrInvoke_spend m key now gen st
  all_goals exact dedupOrInvoke_spend m key now gen st

theorem attempt_spend_step (m : ModelCfg) (key : String) (now : ℚ)
    (gen : Except String (String × ℚ)) (st : RouterState)
    (hc : 0 ≤ m.per_call)
    (hb : ∀ S, m.spend_ceiling = some S → st.spend ≤ S) :
    st.spend ≤ (execute_generation m key now gen st).state.spend ∧
    (∀ S, m.spend_ceiling = some S →
      (execute_generation m key now gen st).state.spend ≤ S) := by
  unfold execute_generation
  rcases hcached : cacheHit m now st.keyState with _ | r
  · rcases hS : m.spend_ceiling with _ | S
    · simp only []
      rcases afterSpendCheck_spend m key now gen st with h | h <;>
        rw [h] <;> exact ⟨by linarith, fun S hS2 => by cases hS2⟩
    · simp only []
      split_ifs with hover
      · exact ⟨hb S hS, fun S2 hS2 => by cases hS2; simp⟩
      · rcases afterSpendCheck_spend m key now gen st with h | h <;> rw [h]
        · exact ⟨le_refl _, fun S2 hS2 => by cases hS2; exact hb S hS⟩
        · exact ⟨by linarith, fun S2 hS2 => by
            cases hS2; linarith [not_lt.mp hover]⟩
  · exact ⟨le_refl _, hb⟩

theorem execute_invoked_eq (m : ModelCfg) (key : String) (now : ℚ)
    (gen : Except String (String × ℚ)) (st : RouterState)
    (hinv : (execute_generation m key now gen st).providerInvoked = true) :
    execute_generation m key now gen st =
      recordOutcome m key now gen
        { st with keyState := create_inflight st.keyState } := by
  unfold execute_generation afterSpendCheck dedupOrInvoke at hinv ⊢
  rcases hcached : cacheHit m now st.keyState with _ | r <;>
    simp only [hcached] at hinv ⊢
  · rcases hS : m.spend_ceiling with _ | S <;> simp only [hS] at hinv ⊢
    · rcases hl : st.latency with _ | L <;>
        rcases ht : m.latency_threshold_ms with _ | T <;>
        simp only [hl, ht] at hinv ⊢ <;>
        (try split_ifs at hinv ⊢) <;>
        rcases hrow : st.keyState.row with _ | row <;>
        simp only [hrow] at hinv ⊢ <;>
        first | rfl | cases hinv
    · split_ifs at hinv ⊢ with hover
      all_goals
        rcases hl : st.latency with _ | L <;>
          rcases ht : m.latency_threshold_ms with _ | T <;>
          simp only [hl, ht] at hinv ⊢ <;>
          (try split_ifs at hinv ⊢) <;>
          rcases hrow : st.keyState.row with _ | row <;>
          simp only [hrow] at hinv ⊢ <;>
          first | rfl | cases hinv
  · cases hinv

theorem attempt_success_adds_per_call (m : ModelCfg) (key : String) (now : ℚ)
    (gen : Except String (String × ℚ)) (st : RouterState)
    (hinv : (execute_generation m key now gen st).providerInvoked = true)
    (hok : ∃ r, (execute_generation m key now gen st).result = .ok r) :
    (execute_generation m key now gen st).state.spend = st.spend + m.per_call := by
  rw [execute_invoked_eq m key now gen st hinv] at hok ⊢
  rcases gen with msg | ⟨out, lat⟩
  · obtain ⟨r, hr⟩ := hok; cases hr
  · simp only [recordOutcome] at hok ⊢
    split_ifs at hok ⊢ with h
    · obtain ⟨r, hr⟩ := hok; cases hr
    · rfl

/-- C4 (counterexample): the claim "whenever `execute_generation` is attempted
with `s + c > S` the attempt raises `GenerationError`, sets recorded spend to
exactly `S`, and never invokes the provider" fails when a live cache record
exists: the cache lookup precedes the availability checks (§4.1 step 2), so
here spend `3/2` with ceiling `1` and per-call `3/5` (projected `21/10 > 1`)
returns the cached record, raises nothing, and leaves spend at `3/2 ≠ 1`. -/
theorem execute_generation_overbudget_cache_hit_counterexample :
    (1 : ℚ) < overspentCachedState.spend + cachedModel.per_call ∧
    execute_generation cachedModel "k" 10 (.ok ("x", 5))
      overspentCachedState =
      { result := .ok cachedRecord
        state := overspentCachedState
        providerInvoked := false } ∧
    overspentCachedState.spend = 3/2 := by
  have hhit : cacheHit cachedModel 10 overspentCachedState.keyState
      = some cachedRecord := by
    norm_num [cacheHit, cachedModel, overspentCachedState, cachedRecord]
  refine ⟨?_, ?_, rfl⟩
  · norm_num [overspentCachedState, cachedModel]
  · simp [execute_generation, hhit]

/-- C4 (amended): whenever `execute_generation` is attempted with current
recorded spend `s` such that `s + per_call > spend_ceiling` and the attempt is
not served from the cache (no live cache record under the model's cache
policy), the attempt raises `GenerationError`, the recorded spend is set to
exactly the ceiling, and the provider client is never invoked. -/
theorem execute_generation_overbudget_clamps_and_skips_provider
    (m : ModelCfg) (key : String) (now : ℚ)
    (gen : Except String (String × ℚ)) (st : RouterState) (S : ℚ)
    (hnohit : cacheHit m now st.keyState = none)
    (hceil : m.spend_ceiling = some S)
    (hover : S < st.spend + m.per_call) :
    (execute_generation m key now gen st).result =
      .genError "projected spend exceeded ceiling" ∧
    (execute_generation m key now gen st).state.spend = S ∧
    (execute_generation m key now gen st).providerInvoked = false := by
  unfold execute_generation
  simp [hnohit, hceil, hover]

/-- Closed instance of
`execute_generation_overbudget_clamps_and_skips_provider`: spend `3/2`,
ceiling `1`, per-call `1/5`, no cache record. -/
theorem execute_generation_overbudget_clamps_witness :
    (execute_generation modelFifth "k" 0 (.ok ("x", 5))
      overspentState).result = .genError "projected spend exceeded ceiling" ∧
    (execute_generation modelFifth "k" 0 (.ok ("x", 5))
      overspentState).state.spend = 1 ∧
    (execute_generation modelFifth "k" 0 (.ok ("x", 5))
      overspentState).providerInvoked = false :=
  execute_generation_overbudget_clamps_and_skips_provider
    modelFifth "k" 0 (.ok ("x", 5)) overspentState 1
    (by norm_num [cacheHit, overspentState])
    (by norm_num [modelFifth])
    (by norm_num [modelFifth, overspentState])

theorem runOps_attempts_spend (m : ModelCfg) (key : String)
    (hc : 0 ≤ m.per_call) :
    ∀ (ops : List LedgerOp) (st : RouterState),
      (∀ S, m.spend_ceiling = some S → st.spend ≤ S) →
      (∀ op ∈ ops, ∃ now gen, op = .attempt now gen) →
      st.spend ≤ (runOps m key st ops).spend ∧
        (∀ S, m.spend_ceiling = some S → (runOps m key st ops).spend ≤ S)
  | [], st, hb, _ => ⟨le_refl _, hb⟩
  | op :: tl, st, hb, hops => by
    obtain ⟨now, gen, rfl⟩ := hops op (by simp)
    have hstep := attempt_spend_step m key now gen st hc hb
    have hrec := runOps_attempts_spend m key hc tl
      (execute_generation m key now gen st).state hstep.2
      (fun op2 hop2 => hops op2 (by simp [hop2]))
    exact ⟨le_trans hstep.1 hrec.1, hrec.2⟩

/-- C5 (counterexample): the claim "across every sequence of
Router/SharedLedger operations without an explicit `reset()`, recorded spend
never decreases" fails: prepopulating spend to `3/2` through the ledger's
`set_spend` (as the repository's own budget test does) and then attempting a
generation on a model with ceiling `1` clamps the spend down to `1 < 3/2`,
with no `reset()` in the sequence. -/
theorem spend_decreases_without_reset_counterexample :
    LedgerOp.reset ∉
      [LedgerOp.set_spend (3/2), LedgerOp.attempt 0 (.ok ("x", 1))] ∧
    (runOps modelFifth "k" freshState [LedgerOp.set_spend (3/2)]).spend
      = 3/2 ∧
    (runOps modelFifth "k" freshState
      [LedgerOp.set_spend (3/2), LedgerOp.attempt 0 (.ok ("x", 1))]).spend
      = 1 ∧
    (1 : ℚ) < 3/2 := by
  refine ⟨by simp, by simp [runOps, applyOp], ?_, by norm_num⟩
  simp only [runOps, List.foldl, applyOp]
  rw [execute_generation]
  norm_num [cacheHit, freshState, modelFifth]

/-- C5 (amended): for a model with nonnegative per-call cost, across every
sequence of `execute_generation` attempts (the Router's own operations — no
direct `set_spend` write and no `reset()`), starting from a recorded spend not
already above the model's ceiling, the recorded spend never decreases and
never exceeds the ceiling; moreover every attempt that invokes the provider
and returns successfully increases the spend by exactly `per_call`. -/
theorem spend_monotone_under_router_attempts
    (m : ModelCfg) (key : String) (st : RouterState)
    (hc : 0 ≤ m.per_call)
    (hb : ∀ S, m.spend_ceiling = some S → st.spend ≤ S)
    (ops : List LedgerOp)
    (hops : ∀ op ∈ ops, ∃ now gen, op = .attempt now gen) :
    (st.spend ≤ (runOps m key st ops).spend ∧
      ∀ S, m.spend_ceiling = some S → (runOps m key st ops).spend ≤ S) ∧
    (∀ now gen,
      (execute_generation m key now gen st).providerInvoked = true →
      (∃ r, (execute_generation m key now gen st).result = .ok r) →
      (execute_generation m key now gen st).state.spend
        = st.spend + m.per_call) :=
  ⟨runOps_attempts_spend m key hc ops st hb hops,
    fun now gen hinv hok =>
      attempt_success_adds_per_call m key now gen st hinv hok⟩

/-- Closed instance of `spend_monotone_under_router_attempts`: two successful
attempts at per-call `1/5` under ceiling `1`. -/
theorem spend_monotone_under_router_attempts_witness :
    (freshState.spend ≤ (runOps modelFifth "k" freshState twoAttempts).spend ∧
      ∀ S, modelFifth.spend_ceiling = some S →
        (runOps modelFifth "k" freshState twoAttempts).spend ≤ S) ∧
    (∀ now gen,
      (execute_generation modelFifth "k" now gen
        freshState).providerInvoked = true →
      (∃ r, (execute_generation modelFifth "k" now gen freshState).result
        = .ok r) →
      (execute_generation modelFifth "k" now gen freshState).state.spend
        = freshState.spend + modelFifth.per_call) :=
  spend_monotone_under_router_attempts modelFifth "k" freshState
    (by norm_num [modelFifth])
    (fun S hS => by
      simp only [modelFifth] at hS
      cases hS
      norm_num [freshState])
    twoAttempts
    (by
      intro op hop
      simp only [twoAttempts, List.mem_cons, List.not_mem_nil, or_false] at hop
      rcases hop with rfl | rfl <;> exact ⟨_, _, rfl⟩)

theorem encLen_append_inj : ∀ (m n : ℕ) (r r' : List Char),
    encLen m ++ r = encLen n ++ r' → m = n ∧ r = r' := by
  intro m
  induction m with
  | zero =>
    intro n r r' h
    cases n with
    | zero =>
      refine ⟨rfl, ?_⟩
      simpa [encLen] using h
    | succ k =>
      simp only [encLen, List.replicate_succ, List.nil_append, List.cons_append,
        List.replicate, List.cons.injEq] at h
      exact absurd h.1 (by decide)
  | succ k ih =>
    intro n r r' h
    cases n with
    | zero =>
      simp only [encLen, List.replicate_succ, List.nil_append, List.cons_append,
        List.replicate, List.cons.injEq] at h
      exact absurd h.1 (by decide)
    | succ l =>
      simp only [encLen, List.replicate_succ, List.cons_append,
        List.cons.injEq] at h
      obtain ⟨h1, h2⟩ := ih l r r' (by simpa [encLen] using h.2)
      exact ⟨by omega, h2⟩

theorem encStr_append_inj (a b r r' : List Char)
    (h : encStr a ++ r = encStr b ++ r') : a = b ∧ r = r' := by
  have h1 : encLen a.length ++ (a ++ r) = encLen b.length ++ (b ++ r') := by
    simpa [encStr, List.append_assoc] using h
  obtain ⟨hlen, happ⟩ := encLen_append_inj a.length b.length _ _ h1
  exact List.append_inj happ hlen

theorem encInt_append_inj (i j : ℤ) (r r' : List Char)
    (h : encInt i ++ r = encInt j ++ r') : i = j ∧ r = r' := by
  cases i <;> cases j <;>
    simp only [encInt, List.cons_append, List.cons.injEq] at h
  case ofNat.ofNat m n =>
    obtain ⟨h1, h2⟩ := encLen_append_inj m n r r' h.2
    exact ⟨by rw [h1], h2⟩
  case ofNat.negSucc m n => exact absurd h.1 (by decide)
  case negSucc.ofNat m n => exact absurd h.1 (by decide)
  case negSucc.negSucc m n =>
    obtain ⟨h1, h2⟩ := encLen_append_inj m n r r' h.2
    exact ⟨by rw [h1], h2⟩

theorem encRat_append_inj (p q : ℚ) (r r' : List Char)
    (h : encRat p ++ r = encRat q ++ r') : p = q ∧ r = r' := by
  have h1 : encInt p.num ++ (encLen p.den ++ r)
      = encInt q.num ++ (encLen q.den ++ r') := by
    simpa [encRat, List.append_assoc] using h
  obtain ⟨hnum, h2⟩ := encInt_append_inj p.num q.num _ _ h1
  obtain ⟨hden, h3⟩ := encLen_append_inj p.den q.den r r' h2
  exact ⟨Rat.ext hnum hden, h3⟩

/-- C6: the cache-key encoding is a total function of exactly the five-tuple
(model, workflow, prompt, temperature, max_tokens): two tuples encode to the
same cache key if and only if they are equal — identical tuples always encode
identically, and tuples differing in at least one field (hence also any
field-order-sensitive variation) encode differently. -/
theorem encode_cache_key_deterministic_and_injective (t₁ t₂ : RequestKey) :
    encode_cache_key t₁ = encode_cache_key t₂ ↔ t₁ = t₂ := by
  constructor
  · intro h
    have h0 : encStr t₁.model.data ++
        (encStr t₁.workflow.data ++
          (encStr t₁.prompt.data ++
            (encRat t₁.temperature ++ encLen t₁.max_tokens)))
        = encStr t₂.model.data ++
        (encStr t₂.workflow.data ++
          (encStr t₂.prompt.data ++
            (encRat t₂.temperature ++ encLen t₂.max_tokens))) :=
      congrArg String.data h
    obtain ⟨hm, h1⟩ := encStr_append_inj _ _ _ _ h0
    obtain ⟨hw, h2⟩ := encStr_append_inj _ _ _ _ h1
    obtain ⟨hp, h3⟩ := encStr_append_inj _ _ _ _ h2
    obtain ⟨ht, h4⟩ := encRat_append_inj _ _ _ _ h3
    obtain ⟨hn, -⟩ := encLen_append_inj t₁.max_tokens t₂.max_tokens [] []
      (by simpa using h4)
    obtain ⟨m₁, w₁, p₁, τ₁, n₁⟩ := t₁
    obtain ⟨m₂, w₂, p₂, τ₂, n₂⟩ := t₂
    simp only [RequestKey.mk.injEq]
    exact ⟨String.ext hm, String.ext hw, String.ext hp, ht, hn⟩
  · rintro rfl
    rfl

/-- Closed instance of `encode_cache_key_deterministic_and_injective`: two
tuples differing only in `max_tokens` encode to different cache keys. -/
theorem encode_cache_key_deterministic_and_injective_witness :
    encode_cache_key ⟨"m", "chat", "hello", 1/5, 800⟩ ≠
      encode_cache_key ⟨"m", "chat", "hello", 1/5, 801⟩ := fun h => by
  have h2 := (encode_cache_key_deterministic_and_injective
    ⟨"m", "chat", "hello", 1/5, 800⟩ ⟨"m", "chat", "hello", 1/5, 801⟩).mp h
  simp at h2

theorem indexedRegistry_map_name (registry : List (String × ℚ)) :
    (indexedRegistry registry).map RegEntry.name = registry.map Prod.fst := by
  unfold indexedRegistry
  rw [List.map_map,
    show (RegEntry.name ∘ fun p : ℕ × String × ℚ =>
      RegEntry.mk p.2.1 p.2.2 p.1) = (Prod.fst ∘ Prod.snd) from rfl,
    ← List.map_map, List.enum_map_snd]

theorem filter_name_eq_singleton :
    ∀ (l : List RegEntry) (h : String) (m : RegEntry),
      (l.map RegEntry.name).Nodup → m ∈ l → m.name = h →
      l.filter (fun e => e.name == h) = [m] := by
  intro l
  induction l with
  | nil => intro h m _ hm _; cases hm
  | cons a tl ih =>
    intro h m hnd hm hname
    simp only [List.map_cons, List.nodup_cons] at hnd
    rcases List.mem_cons.mp hm with rfl | hmem
    · rw [List.filter_cons_of_pos (by simpa [beq_iff_eq] using hname)]
      have hnil : tl.filter (fun e => e.name == h) = [] := by
        refine List.filter_eq_nil_iff.mpr fun e he hbeq => ?_
        have : e.name = m.name := by
          rw [hname]
          exact beq_iff_eq.mp (by simpa using hbeq)
        exact hnd.1 (this ▸ List.mem_map_of_mem RegEntry.name he)
      rw [hnil]
    · have hne : ¬(a.name == h) = true := by
        intro hbeq
        have : a.name = m.name := by rw [hname]; exact beq_iff_eq.mp hbeq
        exact hnd.1 (this ▸ List.mem_map_of_mem RegEntry.name hmem)
      rw [List.filter_cons_of_neg (by simpa using hne)]
      exact ih h m hnd.2 hmem hname

/-- C7: for every registry (with its distinct model names) and hint present in
it, `iter_candidates` yields the hinted model first, followed by exactly the
remaining registered models sorted by descending weight with ties broken
stably by registration order; the whole output is a permutation of the
registry, so every registered model appears exactly once. -/
theorem iter_candidates_hint_first_then_sorted_by_weight
    (registry : List (String × ℚ)) (h : String) (m : RegEntry)
    (hnd : (registry.map Prod.fst).Nodup)
    (hfind : (indexedRegistry registry).find? (fun e => e.name == h)
      = some m) :
    iter_candidates registry (some h) =
      m :: (List.insertionSort prio (indexedRegistry registry)).filter
        (fun e => !(e.name == h)) ∧
    (iter_candidates registry (some h)).head? = some m ∧
    List.Perm (iter_candidates registry (some h)) (indexedRegistry registry) ∧
    List.Sorted prio (iter_candidates registry (some h)).tail := by
  have hshape : iter_candidates registry (some h) =
      m :: (List.insertionSort prio (indexedRegistry registry)).filter
        (fun e => !(e.name == h)) := by
    unfold iter_candidates
    simp only [hfind]
  have hmtrue := List.find?_some hfind
  have hmname : m.name = h := beq_iff_eq.mp (by simpa using hmtrue)
  have hmem : m ∈ indexedRegistry registry := List.mem_of_find?_eq_some hfind
  have hndE : ((indexedRegistry registry).map RegEntry.name).Nodup := by
    rw [indexedRegistry_map_name]; exact hnd
  have hsortperm :
      List.Perm (List.insertionSort prio (indexedRegistry registry))
        (indexedRegistry registry) :=
    List.perm_insertionSort prio _
  have hndS : ((List.insertionSort prio
      (indexedRegistry registry)).map RegEntry.name).Nodup :=
    ((hsortperm.map RegEntry.name).nodup_iff).mpr hndE
  have hmemS : m ∈ List.insertionSort prio (indexedRegistry registry) :=
    hsortperm.mem_iff.mpr hmem
  have hsingle : (List.insertionSort prio (indexedRegistry registry)).filter
      (fun e => e.name == h) = [m] :=
    filter_name_eq_singleton _ h m hndS hmemS hmname
  refine ⟨hshape, by rw [hshape]; rfl, ?_, ?_⟩
  · rw [hshape]
    have hp := (List.filter_append_perm (fun e => e.name == h)
      (List.insertionSort prio (indexedRegistry registry))).trans hsortperm
    rw [hsingle] at hp
    simpa using hp
  · rw [hshape]
    exact (List.sorted_insertionSort prio _).sublist (List.filter_sublist _)

/-- Closed instance of `iter_candidates_hint_first_then_sorted_by_weight`:
the repository test's registry `heavy` (weight 5) and `hinted` (weight 1)
with hint `"hinted"`. -/
theorem iter_candidates_hint_first_witness :
    iter_candidates [("heavy", 5), ("hinted", 1)] (some "hinted") =
      ⟨"hinted", 1, 1⟩ ::
        (List.insertionSort prio
          (indexedRegistry [("heavy", 5), ("hinted", 1)])).filter
          (fun e => !(e.name == "hinted")) ∧
    (iter_candidates [("heavy", 5), ("hinted", 1)]
      (some "hinted")).head? = some ⟨"hinted", 1, 1⟩ ∧
    List.Perm (iter_candidates [("heavy", 5), ("hinted", 1)] (some "hinted"))
      (indexedRegistry [("heavy", 5), ("hinted", 1)]) ∧
    List.Sorted prio
      (iter_candidates [("heavy", 5), ("hinted", 1)] (some "hinted")).tail :=
  iter_candidates_hint_first_then_sorted_by_weight
    [("heavy", 5), ("hinted", 1)] "hinted" ⟨"hinted", 1, 1⟩
    (by simp) rfl

theorem dropHealthy_sublist :
    ∀ (n : ℕ) (l : List (String × CircuitState)),
      List.Sublist (dropHealthy n l) l := by
  intro n l
  induction l generalizing n with
  | nil => cases n <;> simp [dropHealthy]
  | cons e tl ih =>
    cases n with
    | zero => simp [dropHealthy]
    | succ m =>
      by_cases h : e.2.opened_at.isSome = true
      · have heq : dropHealthy (m + 1) (e :: tl)
            = e :: dropHealthy (m + 1) tl := by simp [dropHealthy, h]
        rw [heq]
        exact (ih (m + 1)).cons₂ e
      · have heq : dropHealthy (m + 1) (e :: tl) = dropHealthy m tl := by
          simp [dropHealthy, h]
        rw [heq]
        exact (ih m).cons e

theorem mem_dropHealthy_of_open :
    ∀ (n : ℕ) (l : List (String × CircuitState)) (e : String × CircuitState),
      e ∈ l → e.2.opened_at.isSome = true → e ∈ dropHealthy n l := by
  intro n l
  induction l generalizing n with
  | nil => intro e he; cases he
  | cons a tl ih =>
    intro e he hopen
    cases n with
    | zero => simpa [dropHealthy] using he
    | succ m =>
      by_cases ha : a.2.opened_at.isSome = true
      · have heq : dropHealthy (m + 1) (a :: tl)
            = a :: dropHealthy (m + 1) tl := by simp [dropHealthy, ha]
        rw [heq]
        rcases List.mem_cons.mp he with rfl | htl
        · exact List.mem_cons_self _ _
        · exact List.mem_cons_of_mem _ (ih (m + 1) e htl hopen)
      · have heq : dropHealthy (m + 1) (a :: tl) = dropHealthy m tl := by
          simp [dropHealthy, ha]
        rw [heq]
        rcases List.mem_cons.mp he with rfl | htl
        · exact absurd hopen ha
        · exact ih m e htl hopen

theorem dropHealthy_lru :
    ∀ (n : ℕ) (l : List (String × CircuitState)),
      l.Pairwise touchLe →
      ∀ x ∈ l, x ∉ dropHealthy n l →
        x.2.opened_at = none ∧
        ∀ y ∈ dropHealthy n l, y.2.opened_at = none →
          x.2.last_touched ≤ y.2.last_touched := by
  intro n l
  induction l generalizing n with
  | nil => intro _ x hx; cases hx
  | cons a tl ih =>
    intro hp x hx hnx
    cases n with
    | zero => exact absurd hx hnx
    | succ m =>
      have hp1 := List.pairwise_cons.mp hp
      by_cases ha : a.2.opened_at.isSome = true
      · have heq : dropHealthy (m + 1) (a :: tl)
            = a :: dropHealthy (m + 1) tl := by simp [dropHealthy, ha]
        rw [heq] at hnx ⊢
        rcases List.mem_cons.mp hx with rfl | htl
        · exact absurd (List.mem_cons_self _ _) hnx
        · have hnx2 : x ∉ dropHealthy (m + 1) tl := fun hc =>
            hnx (List.mem_cons_of_mem _ hc)
          obtain ⟨hh, hy⟩ := ih (m + 1) hp1.2 x htl hnx2
          refine ⟨hh, fun y hy2 hyh => ?_⟩
          rcases List.mem_cons.mp hy2 with rfl | hy3
          · rw [hyh] at ha
            simp at ha
          · exact hy y hy3 hyh
      · have heq : dropHealthy (m + 1) (a :: tl) = dropHealthy m tl := by
          simp [dropHealthy, ha]
        rw [heq] at hnx ⊢
        rcases List.mem_cons.mp hx with rfl | htl
        · refine ⟨Option.not_isSome_iff_eq_none.mp ha, fun y hy2 _ => ?_⟩
          exact hp1.1 y ((dropHealthy_sublist m tl).subset hy2)
        · exact ih m hp1.2 x htl hnx

theorem mem_pruneCircuits_of_open (cfg : PolicyCfg) (now : ℚ)
    (table : CircuitTable) (e : String × CircuitState)
    (he : e ∈ table) (hopen : e.2.opened_at.isSome = true) :
    e ∈ pruneCircuits cfg now table := by
  unfold pruneCircuits
  refine mem_dropHealthy_of_open _ _ e ?_ hopen
  refine (List.perm_insertionSort touchLe _).mem_iff.mpr ?_
  exact List.mem_filter.mpr ⟨he, by simp [hopen]⟩

theorem pruneCircuits_subset (cfg : PolicyCfg) (now : ℚ)
    (table : CircuitTable) (e : String × CircuitState)
    (he : e ∈ pruneCircuits cfg now table) : e ∈ table := by
  unfold pruneCircuits at he
  have h1 := (dropHealthy_sublist _ _).subset he
  have h2 := (List.perm_insertionSort touchLe _).subset h1
  exact List.mem_of_mem_filter h2

theorem pruneCircuits_keys_nodup (cfg : PolicyCfg) (now : ℚ)
    (table : CircuitTable) (h : (table.map Prod.fst).Nodup) :
    ((pruneCircuits cfg now table).map Prod.fst).Nodup := by
  unfold pruneCircuits
  have h1 : ((freshCircuits cfg now table).map Prod.fst).Nodup :=
    h.sublist ((List.filter_sublist table).map Prod.fst)
  have h2 : ((List.insertionSort touchLe
      (freshCircuits cfg now table)).map Prod.fst).Nodup :=
    (((List.perm_insertionSort touchLe _).map Prod.fst).nodup_iff).mpr h1
  exact h2.sublist ((dropHealthy_sublist _ _).map Prod.fst)

theorem lookupCircuit_eq_of_mem_nodup :
    ∀ (l : CircuitTable) (k : String) (st : CircuitState),
      (l.map Prod.fst).Nodup → (k, st) ∈ l → lookupCircuit k l = some st := by
  intro l
  induction l with
  | nil => intro k st _ hm; cases hm
  | cons a tl ih =>
    intro k st hnd hm
    simp only [List.map_cons, List.nodup_cons] at hnd
    rcases List.mem_cons.mp hm with rfl | htl
    · rw [lookupCircuit, List.find?_cons_of_pos _ (by simp)]
      rfl
    · have hne : ¬(a.1 == k) = true := by
        intro hbeq
        have hk : a.1 = k := beq_iff_eq.mp hbeq
        have : k ∈ tl.map Prod.fst := List.mem_map_of_mem Prod.fst htl
        exact hnd.1 (hk ▸ this)
      rw [lookupCircuit, List.find?_cons_of_neg _ (by simpa using hne)]
      exact ih k st hnd.2 htl

theorem mem_of_lookupCircuit (l : CircuitTable) (k : String)
    (st : CircuitState) (h : lookupCircuit k l = some st) : (k, st) ∈ l := by
  unfold lookupCircuit at h
  rcases hf : l.find? (fun e => e.1 == k) with _ | e
  · rw [hf] at h; cases h
  · rw [hf] at h
    have he : e ∈ l := List.mem_of_find?_eq_some hf
    have hk : e.1 = k := beq_iff_eq.mp (by simpa using List.find?_some hf)
    have hst : e.2 = st := by simpa using h
    have hpe : e = (k, st) := by
      cases e
      simp_all
    rw [← hpe]
    exact he

theorem lookupCircuit_mapAtKey (f : CircuitState → CircuitState)
    (k : String) :
    ∀ l : CircuitTable,
      lookupCircuit k (mapAtKey f k l) = (lookupCircuit k l).map f := by
  intro l
  induction l with
  | nil => rfl
  | cons a tl ih =>
    by_cases h : (a.1 == k) = true
    · unfold lookupCircuit mapAtKey
      rw [List.map_cons, if_pos h, List.find?_cons_of_pos _ (by simpa using h)]
      rw [show List.find? (fun e => e.1 == k) (a :: tl) = some a from
        List.find?_cons_of_pos _ h]
      rfl
    · unfold lookupCircuit mapAtKey
      rw [List.map_cons, if_neg h, List.find?_cons_of_neg _ (by simpa using h)]
      rw [show List.find? (fun e => e.1 == k) (a :: tl)
          = List.find? (fun e => e.1 == k) tl from
        List.find?_cons_of_neg _ h]
      exact ih

/-- C8: while `CircuitState[key]` is open and `now - opened_at` is inside the
recovery window, every `run` call for that key raises `ResilienceError` with
category `circuit_open` and never invokes the supplied callable; and the first
successful invocation after `reset_seconds` have elapsed resets the key's
state to `failures = 0`, `opened_at = none`. -/
theorem circuit_open_blocks_and_probe_resets
    (cfg : PolicyCfg) (now : ℚ) (key : String) (table : CircuitTable)
    (st : CircuitState) (t : ℚ)
    (hnd : (table.map Prod.fst).Nodup)
    (hlk : lookupCircuit key table = some st)
    (hopen : st.opened_at = some t) :
    (now - t < cfg.settings.breaker_reset_seconds →
      ∀ (α : Type) (outcome : Except String α),
        (run cfg now key outcome table).1 = RunOutcome.circuitOpen ∧
        (run cfg now key outcome table).2.2 = false) ∧
    (cfg.settings.breaker_reset_seconds ≤ now - t →
      ∀ (α : Type) (a : α),
        (run cfg now key (Except.ok a) table).1 = RunOutcome.ok a ∧
        ∃ st2,
          lookupCircuit key (run cfg now key (Except.ok a) table).2.1
            = some st2 ∧ st2.failures = 0 ∧ st2.opened_at = none) := by
  have hmem : (key, st) ∈ table := mem_of_lookupCircuit table key st hlk
  have hpm : (key, st) ∈ pruneCircuits cfg now table :=
    mem_pruneCircuits_of_open cfg now table (key, st) hmem (by simp [hopen])
  have hndp := pruneCircuits_keys_nodup cfg now table hnd
  have hlkp : lookupCircuit key (pruneCircuits cfg now table) = some st :=
    lookupCircuit_eq_of_mem_nodup _ key st hndp hpm
  constructor
  · intro hlt α outcome
    have hcheck : checkCircuit cfg now key table
        = (true, touchCircuit key now (pruneCircuits cfg now table)) := by
      unfold checkCircuit
      simp [hlkp, hopen, hlt]
    unfold run
    rw [hcheck]
    exact ⟨rfl, rfl⟩
  · intro hge α a
    have hcheck : checkCircuit cfg now key table
        = (false, touchCircuit key now (pruneCircuits cfg now table)) := by
      unfold checkCircuit
      simp [hlkp, hopen, not_lt.mpr hge]
    unfold run
    rw [hcheck]
    refine ⟨rfl, ?_⟩
    have h1 : lookupCircuit key
        (touchCircuit key now (pruneCircuits cfg now table))
        = some { st with last_touched := now } := by
      unfold touchCircuit
      rw [lookupCircuit_mapAtKey, hlkp]
      rfl
    have h2 := lookupCircuit_mapAtKey
      (fun s => { s with failures := 0, opened_at := none }) key
      (touchCircuit key now (pruneCircuits cfg now table))
    rw [h1] at h2
    exact ⟨_, h2, rfl, rfl⟩

/-- Closed instance of `circuit_open_blocks_and_probe_resets`: key open at
time 100 with a 10-second window; a call at 105 is short-circuited without
invocation, a successful probe at 115 returns and resets the state. -/
theorem circuit_open_blocks_and_probe_resets_witness :
    ((run ⟨⟨1, 10⟩, 512, 3600⟩ 105 "k" (Except.ok (0 : ℕ))
        [("k", ⟨1, some 100, 100⟩)]).1 = RunOutcome.circuitOpen ∧
      (run ⟨⟨1, 10⟩, 512, 3600⟩ 105 "k" (Except.ok (0 : ℕ))
        [("k", ⟨1, some 100, 100⟩)]).2.2 = false) ∧
    ((run ⟨⟨1, 10⟩, 512, 3600⟩ 115 "k" (Except.ok (0 : ℕ))
        [("k", ⟨1, some 100, 100⟩)]).1 = RunOutcome.ok 0 ∧
      ∃ st2,
        lookupCircuit "k" (run ⟨⟨1, 10⟩, 512, 3600⟩ 115 "k"
          (Except.ok (0 : ℕ)) [("k", ⟨1, some 100, 100⟩)]).2.1
          = some st2 ∧ st2.failures = 0 ∧ st2.opened_at = none) :=
  ⟨(circuit_open_blocks_and_probe_resets ⟨⟨1, 10⟩, 512, 3600⟩ 105 "k"
      [("k", ⟨1, some 100, 100⟩)] ⟨1, some 100, 100⟩ 100
      (by simp) rfl rfl).1 (by norm_num) ℕ (Except.ok 0),
    (circuit_open_blocks_and_probe_resets ⟨⟨1, 10⟩, 512, 3600⟩ 115 "k"
      [("k", ⟨1, some 100, 100⟩)] ⟨1, some 100, 100⟩ 100
      (by simp) rfl rfl).2 (by norm_num) ℕ 0⟩

/-- C9: after every maintenance pass, every open entry that was in the table
is still in the table (an open circuit is never evicted, by TTL or capacity,
regardless of age); and only healthy entries are removed, capacity eviction
taking the least-recently-touched ones first — every healthy entry evicted
while within the TTL is no more recently touched than any healthy entry
kept. -/
theorem pruning_protects_open_circuits_and_evicts_lru
    (cfg : PolicyCfg) (now : ℚ) (table : CircuitTable) :
    (∀ k st, (k, st) ∈ table → st.opened_at.isSome →
      (k, st) ∈ pruneCircuits cfg now table) ∧
    (∀ e ∈ table, e ∉ pruneCircuits cfg now table →
      e.2.opened_at = none ∧
      (now - e.2.last_touched ≤ cfg.ttl_seconds →
        ∀ e2 ∈ pruneCircuits cfg now table, e2.2.opened_at = none →
          e.2.last_touched ≤ e2.2.last_touched)) := by
  constructor
  · intro k st hm ho
    exact mem_pruneCircuits_of_open cfg now table (k, st) hm ho
  · intro e he hne
    by_cases ho : e.2.opened_at.isSome = true
    · exact absurd (mem_pruneCircuits_of_open cfg now table e he ho) hne
    · refine ⟨Option.not_isSome_iff_eq_none.mp ho, fun httl => ?_⟩
      have hef : e ∈ freshCircuits cfg now table :=
        List.mem_filter.mpr ⟨he, by simp [httl]⟩
      have hes : e ∈ List.insertionSort touchLe (freshCircuits cfg now table) :=
        (List.perm_insertionSort touchLe _).mem_iff.mpr hef
      have hsorted :
          (List.insertionSort touchLe
            (freshCircuits cfg now table)).Pairwise touchLe :=
        List.sorted_insertionSort touchLe _
      have hlru := dropHealthy_lru
        ((freshCircuits cfg now table).length - cfg.max_circuit_entries)
        (List.insertionSort touchLe (freshCircuits cfg now table))
        hsorted e hes (by unfold pruneCircuits at hne; exact hne)
      intro e2 he2 he2h
      exact hlru.2 e2 (by unfold pruneCircuits at he2; exact he2) he2h

/-- Closed instance of `pruning_protects_open_circuits_and_evicts_lru`: the
repository test's scenario — `k1` old but open among newer healthy entries
with capacity 2 — keeps `k1` across the maintenance pass. -/
theorem pruning_protects_open_circuits_witness :
    ("k1", (⟨5, some 950, 900⟩ : CircuitState)) ∈
      pruneCircuits ⟨⟨5, 60⟩, 2, 3600⟩ 1000
        [("k1", ⟨5, some 950, 900⟩), ("k2", ⟨0, none, 990⟩),
          ("k3", ⟨0, none, 995⟩)] :=
  (pruning_protects_open_circuits_and_evicts_lru ⟨⟨5, 60⟩, 2, 3600⟩ 1000
    [("k1", ⟨5, some 950, 900⟩), ("k2", ⟨0, none, 990⟩),
      ("k3", ⟨0, none, 995⟩)]).1
    "k1" ⟨5, some 950, 900⟩ (List.mem_cons_self _ _) rfl

/-- C10: when the callable completes without raising and the key's circuit is
not open, `run` returns the callable's result (and the callable was indeed
invoked). -/
theorem run_success_returns_callable_result
    (cfg : PolicyCfg) (now : ℚ) (key : String) (table : CircuitTable)
    (hnd : (table.map Prod.fst).Nodup)
    (hno : ∀ st, lookupCircuit key table = some st → st.opened_at = none)
    (α : Type) (a : α) :
    (run cfg now key (Except.ok a) table).1 = RunOutcome.ok a ∧
    (run cfg now key (Except.ok a) table).2.2 = true := by
  rcases hlkp : lookupCircuit key (pruneCircuits cfg now table) with _ | st
  · have hcheck : checkCircuit cfg now key table
        = (false, pruneCircuits cfg now table ++
            [(key, { failures := 0, opened_at := none, last_touched := now })]) := by
      unfold checkCircuit
      rw [hlkp]
    unfold run
    rw [hcheck]
    exact ⟨rfl, rfl⟩
  · have hmem := mem_of_lookupCircuit _ key st hlkp
    have hmem2 : (key, st) ∈ table :=
      pruneCircuits_subset cfg now table _ hmem
    have hlk2 : lookupCircuit key table = some st :=
      lookupCircuit_eq_of_mem_nodup _ key st hnd hmem2
    have hnone := hno st hlk2
    have hcheck : checkCircuit cfg now key table
        = (false, touchCircuit key now (pruneCircuits cfg now table)) := by
      unfold checkCircuit
      simp [hlkp, hnone]
    unfold run
    rw [hcheck]
    exact ⟨rfl, rfl⟩

/-- Closed instance of `run_success_returns_callable_result`: a successful
callable on a fresh table returns its result. -/
theorem run_success_returns_callable_result_witness :
    (run ⟨⟨5, 60⟩, 512, 3600⟩ 0 "k" (Except.ok (7 : ℕ)) []).1
      = RunOutcome.ok 7 ∧
    (run ⟨⟨5, 60⟩, 512, 3600⟩ 0 "k" (Except.ok (7 : ℕ)) []).2.2 = true :=
  run_success_returns_callable_result ⟨⟨5, 60⟩, 512, 3600⟩ 0 "k" []
    (by simp) (fun st h => by cases h) ℕ 7

theorem countP_set_phase (p : CallerPhase → Bool) :
    ∀ (l : List CallerPhase) (i : ℕ) (ph ph' : CallerPhase),
      l.get? i = some ph →
      (l.set i ph').countP p + (if p ph then 1 else 0)
        = l.countP p + (if p ph' then 1 else 0) := by
  intro l
  induction l with
  | nil => intro i ph ph' h; cases h
  | cons a tl ih =>
    intro i ph ph' h
    cases i with
    | zero =>
      have ha : ph = a := by simpa using h.symm
      subst ha
      simp only [List.set_cons_zero, List.countP_cons]
      omega
    | succ j =>
      have h2 : tl.get? j = some ph := by simpa using h
      have := ih j ph ph' h2
      simp only [List.set_cons_succ, List.countP_cons]
      omega

theorem dedupInv_step (O : String) (s : DedupSystem) (i : ℕ)
    (h : dedupInv O s) : dedupInv O (dedupStep O s i) := by
  cases hg : s.callers.get? i with
  | none =>
    simp only [dedupStep, hg]
    exact h
  | some ph =>
    have hmem : ph ∈ s.callers := List.get?_mem hg
    cases ph with
    | start =>
      cases hc : s.cell with
      | empty =>
        simp only [dedupInv, hc] at h
        obtain ⟨hinv0, hall⟩ := h
        simp only [dedupStep, hg, hc, dedupInv]
        have hcl := countP_set_phase isClaimed s.callers i .start .claimed hg
        have hin := countP_set_phase isInvoked s.callers i .start .claimed hg
        have hcl0 : s.callers.countP isClaimed = 0 :=
          List.countP_eq_zero.mpr fun a ha => by
            rw [hall a ha]; simp [isClaimed]
        have hin0 : s.callers.countP isInvoked = 0 :=
          List.countP_eq_zero.mpr fun a ha => by
            rw [hall a ha]; simp [isInvoked]
        simp [isClaimed, isInvoked] at hcl hin
        refine ⟨by omega, by omega, ?_⟩
        intro ph2 hph2 o
        rcases List.mem_or_eq_of_mem_set hph2 with h2 | rfl
        · rw [hall ph2 h2]; simp
        · simp
      | waitingRow =>
        simp only [dedupInv, hc] at h
        obtain ⟨hone, hinv, hnd⟩ := h
        simp only [dedupStep, hg, hc, dedupInv]
        have hcl := countP_set_phase isClaimed s.callers i .start .waitingP hg
        have hin := countP_set_phase isInvoked s.callers i .start .waitingP hg
        simp [isClaimed, isInvoked] at hcl hin
        refine ⟨by omega, by omega, ?_⟩
        intro ph2 hph2 o
        rcases List.mem_or_eq_of_mem_set hph2 with h2 | rfl
        · exact hnd ph2 h2 o
        · simp
      | successRow o2 =>
        simp only [dedupInv, hc] at h
        obtain ⟨hO, hinv, hcl0, hin0, hdone⟩ := h
        simp only [dedupStep, hg, hc, dedupInv]
        have hcl := countP_set_phase isClaimed s.callers i .start .waitingP hg
        have hin := countP_set_phase isInvoked s.callers i .start .waitingP hg
        simp [isClaimed, isInvoked] at hcl hin
        refine ⟨hO, hinv, by omega, by omega, ?_⟩
        intro ph2 hph2 o3 heq
        rcases List.mem_or_eq_of_mem_set hph2 with h2 | rfl
        · exact hdone ph2 h2 o3 heq
        · cases heq
    | claimed =>
      cases hc : s.cell with
      | empty =>
        simp only [dedupInv, hc] at h
        exact absurd (h.2 _ hmem) (by simp)
      | waitingRow =>
        simp only [dedupInv, hc] at h
        obtain ⟨hone, hinv, hnd⟩ := h
        simp only [dedupStep, hg, hc, dedupInv]
        have hcl := countP_set_phase isClaimed s.callers i .claimed .invokedP hg
        have hin := countP_set_phase isInvoked s.callers i .claimed .invokedP hg
        simp [isClaimed, isInvoked] at hcl hin
        refine ⟨by omega, by omega, ?_⟩
        intro ph2 hph2 o
        rcases List.mem_or_eq_of_mem_set hph2 with h2 | rfl
        · exact hnd ph2 h2 o
        · simp
      | successRow o2 =>
        simp only [dedupInv, hc] at h
        obtain ⟨-, -, hcl0, -, -⟩ := h
        have hpos : 0 < s.callers.countP isClaimed :=
          List.countP_pos_iff.mpr ⟨_, hmem, by simp [isClaimed]⟩
        omega
    | invokedP =>
      cases hc : s.cell with
      | empty =>
        simp only [dedupInv, hc] at h
        exact absurd (h.2 _ hmem) (by simp)
      | waitingRow =>
        simp only [dedupInv, hc] at h
        obtain ⟨hone, hinv, hnd⟩ := h
        simp only [dedupStep, hg, hc, dedupInv]
        have hcl := countP_set_phase isClaimed s.callers i .invokedP (.doneP O) hg
        have hin := countP_set_phase isInvoked s.callers i .invokedP (.doneP O) hg
        simp [isClaimed, isInvoked] at hcl hin
        have hpos : 0 < s.callers.countP isInvoked :=
          List.countP_pos_iff.mpr ⟨_, hmem, by simp [isInvoked]⟩
        refine ⟨trivial, by omega, by omega, by omega, ?_⟩
        intro ph2 hph2 o3 heq
        rcases List.mem_or_eq_of_mem_set hph2 with h2 | rfl
        · exact absurd heq (hnd ph2 h2 o3)
        · injection heq with h4
          exact h4.symm
      | successRow o2 =>
        simp only [dedupInv, hc] at h
        obtain ⟨-, -, -, hin0, -⟩ := h
        have hpos : 0 < s.callers.countP isInvoked :=
          List.countP_pos_iff.mpr ⟨_, hmem, by simp [isInvoked]⟩
        omega
    | waitingP =>
      cases hc : s.cell with
      | empty =>
        simp only [dedupStep, hg, hc]
        exact h
      | waitingRow =>
        simp only [dedupStep, hg, hc]
        exact h
      | successRow o2 =>
        simp only [dedupInv, hc] at h
        obtain ⟨hO, hinv, hcl0, hin0, hdone⟩ := h
        simp only [dedupStep, hg, hc, dedupInv]
        have hcl := countP_set_phase isClaimed s.callers i .waitingP (.doneP o2) hg
        have hin := countP_set_phase isInvoked s.callers i .waitingP (.doneP o2) hg
        simp [isClaimed, isInvoked] at hcl hin
        refine ⟨hO, hinv, by omega, by omega, ?_⟩
        intro ph2 hph2 o3 heq
        rcases List.mem_or_eq_of_mem_set hph2 with h2 | rfl
        · exact hdone ph2 h2 o3 heq
        · injection heq with h4
          rw [← h4]
          exact hO
    | doneP o2 =>
      simp only [dedupStep, hg]
      exact h

theorem dedupInv_run (O : String) (s : DedupSystem) (sched : List ℕ)
    (h : dedupInv O s) : dedupInv O (dedupRun O s sched) := by
  induction sched generalizing s with
  | nil => exact h
  | cons i tl ih => exact ih _ (dedupInv_step O s i h)

theorem dedupRun_callers_length (O : String) :
    ∀ (sched : List ℕ) (s : DedupSystem),
      (dedupRun O s sched).callers.length = s.callers.length := by
  intro sched
  induction sched with
  | nil => intro s; rfl
  | cons i tl ih =>
    intro s
    rw [dedupRun, List.foldl_cons, ← dedupRun]
    rw [ih (dedupStep O s i)]
    unfold dedupStep
    rcases hg : s.callers.get? i with _ | ph
    · rfl
    · cases ph <;> simp only [] <;>
        first
          | simp [List.length_set]
          | (rcases s.cell <;> simp [List.length_set])

/-- C1: `N` concurrent `execute_generation` calls with identical
(model, workflow, prompt, temperature, max_tokens) — hence one shared cache
key — and no existing cache entry: under every interleaving of the callers'
atomic steps the provider is invoked at most once and every caller that
completes receives the provider output `O`; in every interleaving in which all
`N` callers complete (`N > 0`), the provider was invoked exactly once and all
`N` callers received the same output `O`. -/
theorem concurrent_identical_requests_one_invocation_same_output
    (O : String) (N : ℕ) (sched : List ℕ) :
    (dedupRun O (initSystem N) sched).invocations ≤ 1 ∧
    (∀ out,
      CallerPhase.doneP out ∈ (dedupRun O (initSystem N) sched).callers →
      out = O) ∧
    ((∀ ph ∈ (dedupRun O (initSystem N) sched).callers,
        ∃ out, ph = CallerPhase.doneP out) → 0 < N →
      (dedupRun O (initSystem N) sched).invocations = 1 ∧
      ∀ ph ∈ (dedupRun O (initSystem N) sched).callers,
        ph = CallerPhase.doneP O) := by
  have hstart : dedupInv O (initSystem N) := by
    simp only [dedupInv, initSystem]
    exact ⟨trivial, fun ph hph => List.eq_of_mem_replicate hph⟩
  have hinv := dedupInv_run O (initSystem N) sched hstart
  set s := dedupRun O (initSystem N) sched with hs
  have hlen : s.callers.length = N := by
    rw [hs, dedupRun_callers_length]
    simp [initSystem]
  rcases hc : s.cell with _ | _ | o
  · simp only [dedupInv, hc] at hinv
    obtain ⟨h0, hall⟩ := hinv
    refine ⟨by omega, ?_, ?_⟩
    · intro out hout
      cases hall _ hout
    · intro hdone hN
      have hne : s.callers ≠ [] := by
        intro hnil
        rw [hnil] at hlen
        simp at hlen
        omega
      obtain ⟨ph, hph⟩ := List.exists_mem_of_ne_nil s.callers hne
      obtain ⟨out, hout⟩ := hdone ph hph
      have h3 := hall ph hph
      rw [hout] at h3
      cases h3
  · simp only [dedupInv, hc] at hinv
    obtain ⟨hone, hiv, hnd⟩ := hinv
    refine ⟨by omega, ?_, ?_⟩
    · intro out hout
      exact absurd rfl (hnd _ hout out)
    · intro hdone hN
      have hne : s.callers ≠ [] := by
        intro hnil
        rw [hnil] at hlen
        simp at hlen
        omega
      obtain ⟨ph, hph⟩ := List.exists_mem_of_ne_nil s.callers hne
      obtain ⟨out, hout⟩ := hdone ph hph
      exact absurd hout (hnd ph hph out)
  · simp only [dedupInv, hc] at hinv
    obtain ⟨hO, h1, -, -, hdoneO⟩ := hinv
    refine ⟨by omega, ?_, ?_⟩
    · intro out hout
      exact hdoneO _ hout out rfl
    · intro hdone _
      refine ⟨h1, fun ph hph => ?_⟩
      obtain ⟨out, hout⟩ := hdone ph hph
      rw [hout, hdoneO ph hph out hout]

/-- Closed instance of
`concurrent_identical_requests_one_invocation_same_output`: three concurrent
callers under the interleaving where caller 0 claims, callers 1 and 2 start
polling, caller 0 generates and marks success, and the waiters resolve — one
invocation, all outputs equal. -/
theorem concurrent_identical_requests_witness :
    (dedupRun "shared-output" (initSystem 3)
      [0, 1, 2, 0, 0, 1, 2]).invocations = 1 ∧
    ∀ ph ∈ (dedupRun "shared-output" (initSystem 3)
      [0, 1, 2, 0, 0, 1, 2]).callers,
      ph = CallerPhase.doneP "shared-output" :=
  (concurrent_identical_requests_one_invocation_same_output
    "shared-output" 3 [0, 1, 2, 0, 0, 1, 2]).2.2
    (by
      intro ph hph
      rw [show (dedupRun "shared-output" (initSystem 3)
          [0, 1, 2, 0, 0, 1, 2]).callers
          = [CallerPhase.doneP "shared-output",
             CallerPhase.doneP "shared-output",
             CallerPhase.doneP "shared-output"] from rfl] at hph
      fin_cases hph <;> exact ⟨"shared-output", rfl⟩)
    (by norm_num)

end ExegesisAI
